import Mathlib

/-!
Verification of `Firestore/core/src/model/transform_operation.cc`.

The file embeds the three transform kinds (server timestamp, array
union/remove, numeric increment) as a tagged union `TransformOperation`
and translates the member functions `ApplyToLocalView`,
`ApplyToRemoteDocument`, `ComputeBaseValue`, `Equals` and `Hash`, plus the
helpers `SafeIncrement`, `AsDouble` and the array coercion/apply loop.

The field value type `google_firestore_v1_Value` is external to the
translation unit; it is modelled below as `Value`, following the spec's
description (tagged union over null/bool/integer/double/string/array/
timestamp with deep structural equality and a deterministic hash).
Machine integers (`int64_t`, `size_t`) are modelled as `Int`/`Nat` with
explicit clamping/`% 2 ^ 64` where the C++ code relies on their width.
IEEE doubles are modelled as exact rationals; claims that depend on
genuine floating-point rounding/overflow behaviour are out of scope.
-/

/-- Modelled from the spec: the external field value type
`google_firestore_v1_Value` — "a tagged union supporting
null/bool/integer/double/string/array/map/timestamp, with defined equality
and hashing".  The pending-server-timestamp sentinel produced by
`FromServerTimestamp` (external `server_timestamp_util`) is modelled as a
dedicated distinguishable constructor carrying the local write time and
the optional previous value. -/
inductive Value : Type where
  | nullValue : Value
  | booleanValue (b : Bool) : Value
  | integerValue (n : Int) : Value
  | doubleValue (d : Rat) : Value
  | stringValue (s : String) : Value
  | timestampValue (seconds : Int) (nanoseconds : Int) : Value
  | arrayValue (elements : List Value) : Value
  | serverTimestampValue (seconds : Int) (nanoseconds : Int) (previous : Option Value) : Value

mutual

/-- Modelled from the spec: deep structural value equality (`operator==`
on `google_firestore_v1_Value`, "value/deep equality of the field-value
type, not identity"). -/
def valueEq : Value → Value → Bool
  | .nullValue, .nullValue => true
  | .booleanValue a, .booleanValue b => a == b
  | .integerValue a, .integerValue b => a == b
  | .doubleValue a, .doubleValue b => a == b
  | .stringValue a, .stringValue b => a == b
  | .timestampValue s1 n1, .timestampValue s2 n2 => s1 == s2 && n1 == n2
  | .arrayValue xs, .arrayValue ys => valueListEq xs ys
  | .serverTimestampValue s1 n1 p1, .serverTimestampValue s2 n2 p2 =>
      s1 == s2 && n1 == n2 && valueOptEq p1 p2
  | _, _ => false

/-- Elementwise equality of value sequences (length check plus indexwise
`operator==`, as in `ArrayTransform::Rep::Equals`). -/
def valueListEq : List Value → List Value → Bool
  | [], [] => true
  | x :: xs, y :: ys => valueEq x y && valueListEq xs ys
  | _, _ => false

/-- Equality of optional values. -/
def valueOptEq : Option Value → Option Value → Bool
  | none, none => true
  | some a, some b => valueEq a b
  | _, _ => false

end

mutual

theorem valueEq_sound : ∀ (a b : Value), valueEq a b = true → a = b
  | .nullValue, .nullValue, _ => rfl
  | .booleanValue a, .booleanValue b, h => by
      simp only [valueEq, beq_iff_eq] at h; exact h ▸ rfl
  | .integerValue a, .integerValue b, h => by
      simp only [valueEq, beq_iff_eq] at h; exact h ▸ rfl
  | .doubleValue a, .doubleValue b, h => by
      simp only [valueEq, beq_iff_eq] at h; exact h ▸ rfl
  | .stringValue a, .stringValue b, h => by
      simp only [valueEq, beq_iff_eq] at h; exact h ▸ rfl
  | .timestampValue s1 n1, .timestampValue s2 n2, h => by
      simp only [valueEq, Bool.and_eq_true, beq_iff_eq] at h
      obtain ⟨h1, h2⟩ := h; rw [h1, h2]
  | .arrayValue xs, .arrayValue ys, h => by
      have := valueListEq_sound xs ys (by simpa [valueEq] using h)
      rw [this]
  | .serverTimestampValue s1 n1 p1, .serverTimestampValue s2 n2 p2, h => by
      simp only [valueEq, Bool.and_eq_true, beq_iff_eq] at h
      obtain ⟨⟨h1, h2⟩, h3⟩ := h
      have := valueOptEq_sound p1 p2 h3
      rw [h1, h2, this]

theorem valueListEq_sound : ∀ (xs ys : List Value), valueListEq xs ys = true → xs = ys
  | [], [], _ => rfl
  | x :: xs, y :: ys, h => by
      simp only [valueListEq, Bool.and_eq_true] at h
      obtain ⟨h1, h2⟩ := h
      rw [valueEq_sound x y h1, valueListEq_sound xs ys h2]

theorem valueOptEq_sound : ∀ (p q : Option Value), valueOptEq p q = true → p = q
  | none, none, _ => rfl
  | some a, some b, h => by rw [valueEq_sound a b (by simpa [valueOptEq] using h)]

end

mutual

theorem valueEq_refl : ∀ (a : Value), valueEq a a = true
  | .nullValue => rfl
  | .booleanValue a => by simp [valueEq]
  | .integerValue a => by simp [valueEq]
  | .doubleValue a => by simp [valueEq]
  | .stringValue a => by simp [valueEq]
  | .timestampValue s n => by simp [valueEq]
  | .arrayValue xs => by simpa [valueEq] using valueListEq_refl xs
  | .serverTimestampValue s n p => by simpa [valueEq] using valueOptEq_refl p

theorem valueListEq_refl : ∀ (xs : List Value), valueListEq xs xs = true
  | [] => rfl
  | x :: xs => by simp [valueListEq, valueEq_refl x, valueListEq_refl xs]

theorem valueOptEq_refl : ∀ (p : Option Value), valueOptEq p p = true
  | none => rfl
  | some a => by simpa [valueOptEq] using valueEq_refl a

end

instance : DecidableEq Value := fun a b =>
  if h : valueEq a b = true then isTrue (valueEq_sound a b h)
  else isFalse (fun he => h (he ▸ valueEq_refl a))

theorem valueEq_iff (a b : Value) : valueEq a b = true ↔ a = b :=
  ⟨valueEq_sound a b, fun h => h ▸ valueEq_refl a⟩

theorem valueListEq_iff (xs ys : List Value) : valueListEq xs ys = true ↔ xs = ys :=
  ⟨valueListEq_sound xs ys, fun h => h ▸ valueListEq_refl xs⟩

/-- Value type tags (`google_firestore_v1_Value::Type`). -/
inductive ValueType : Type where
  | Null | Boolean | Integer | Double | String | Timestamp | Array | ServerTimestampSentinel
deriving DecidableEq

/-- Type introspection (`google_firestore_v1_Value::type()`). -/
def Value.type : Value → ValueType
  | .nullValue => .Null
  | .booleanValue _ => .Boolean
  | .integerValue _ => .Integer
  | .doubleValue _ => .Double
  | .stringValue _ => .String
  | .timestampValue _ _ => .Timestamp
  | .arrayValue _ => .Array
  | .serverTimestampValue _ _ _ => .ServerTimestampSentinel

/-- Modelled from the spec: `is_number()` — a value is numeric iff it is an
integer or a double. -/
def Value.is_number (v : Value) : Bool :=
  v.type == .Integer || v.type == .Double

/-- Payload accessor `integer_value()` (guarded by a type check at every
call site in the source). -/
def Value.integer_value : Value → Int
  | .integerValue n => n
  | _ => 0

/-- Payload accessor `double_value()`. -/
def Value.double_value : Value → Rat
  | .doubleValue d => d
  | _ => 0

/-- Payload accessor `array_value()`. -/
def Value.array_value : Value → List Value
  | .arrayValue xs => xs
  | _ => []

mutual

/-- Modelled from the spec: the external per-value hash
(`google_firestore_v1_Value::Hash()`), a deterministic `size_t`-valued hash
consistent with equality; `size_t` is modelled as `Nat % 2 ^ 64`. -/
def valueHash : Value → Nat
  | .nullValue => 11
  | .booleanValue b => if b then 1231 else 1237
  | .integerValue n => (31 + 2 * n.natAbs + (if n < 0 then 1 else 0)) % 2 ^ 64
  | .doubleValue d => (37 + 31 * d.num.natAbs + d.den) % 2 ^ 64
  | .stringValue s => (41 + s.length) % 2 ^ 64
  | .timestampValue s n => (43 + 31 * s.natAbs + n.natAbs) % 2 ^ 64
  | .arrayValue xs => valueListHash xs
  | .serverTimestampValue s n p => (47 + 31 * s.natAbs + n.natAbs + valueOptHash p) % 2 ^ 64

/-- Sequential order-sensitive mix of element hashes. -/
def valueListHash : List Value → Nat
  | [] => 53
  | x :: xs => (31 * valueHash x + valueListHash xs) % 2 ^ 64

/-- Hash of an optional value. -/
def valueOptHash : Option Value → Nat
  | none => 59
  | some v => valueHash v

end

/-- Local write timestamp (`firebase::Timestamp`). -/
structure Timestamp : Type where
  seconds : Int
  nanoseconds : Int
deriving DecidableEq

/-- Modelled from the spec: `FromServerTimestamp` (external
`server_timestamp_util`) builds the distinguishable
"pending server timestamp" sentinel from the local write time and the
previous value. -/
def FromServerTimestamp (local_write_time : Timestamp) (previous_value : Option Value) : Value :=
  .serverTimestampValue local_write_time.seconds local_write_time.nanoseconds previous_value

/-- `TransformOperation::Type`: the four variant tags. -/
inductive TransformType : Type where
  | ServerTimestamp | ArrayUnion | ArrayRemove | Increment
deriving DecidableEq

/-- The closed variant set of transform operations: the per-kind `Rep`
subclasses of `TransformOperation` collapsed into a tagged union
(`ServerTimestampTransform::Rep` has no payload; `ArrayTransform::Rep`
holds its tag and candidate elements; `NumericIncrementTransform::Rep`
holds its operand). -/
inductive TransformOperation : Type where
  | serverTimestampTransform : TransformOperation
  | arrayTransform (ty : TransformType) (elements : List Value) : TransformOperation
  | numericIncrementTransform (operand : Value) : TransformOperation

/-- `type()`: the variant tag of an operation. -/
def TransformOperation.type : TransformOperation → TransformType
  | .serverTimestampTransform => .ServerTimestamp
  | .arrayTransform ty _ => ty
  | .numericIncrementTransform _ => .Increment

/-- `IsArrayTransform` (anonymous namespace helper). -/
def IsArrayTransform (ty : TransformType) : Bool :=
  ty == .ArrayUnion || ty == .ArrayRemove

/-- The constructor `HARD_ASSERT`s: an `ArrayTransform` is constructed only
with an array tag, a `NumericIncrementTransform` only with a numeric
operand.  A `TransformOperation` satisfying this predicate is one that the
C++ constructors can actually produce. -/
def Constructible : TransformOperation → Bool
  | .serverTimestampTransform => true
  | .arrayTransform ty _ => IsArrayTransform ty
  | .numericIncrementTransform operand => operand.is_number

/-- `ArrayTransform::Rep::Coercedgoogle_firestore_v1_ValuesArray`: a copy of
the previous value's elements if it is present and an array, an empty
sequence otherwise. -/
def ArrayTransform.CoercedValuesArray : Option Value → List Value
  | some v => if v.type = .Array then v.array_value else []
  | none => []

/-- The inner erase-and-compact loop of `ArrayTransform::Rep::Apply` for one
removal candidate: every position equal to `element` is erased, the rest
keep their order. -/
def ArrayTransform.RemoveMatches (element : Value) : List Value → List Value
  | [] => []
  | x :: rest =>
      if element = x then ArrayTransform.RemoveMatches element rest
      else x :: ArrayTransform.RemoveMatches element rest

/-- One iteration of the candidate loop in `ArrayTransform::Rep::Apply`:
union appends the candidate iff `absl::c_find` misses, removal erases every
matching position. -/
def ArrayTransform.ApplyStep (ty : TransformType) (result : List Value) (element : Value) :
    List Value :=
  if ty = .ArrayUnion then
    if element ∈ result then result else result ++ [element]
  else
    ArrayTransform.RemoveMatches element result

/-- `ArrayTransform::Rep::Apply`: coerce the previous value, fold the
candidate elements in order, wrap the result back into an array value. -/
def ArrayTransform.Apply (ty : TransformType) (elements : List Value)
    (previous_value : Option Value) : Value :=
  .arrayValue (elements.foldl (ArrayTransform.ApplyStep ty)
    (ArrayTransform.CoercedValuesArray previous_value))

/-- `LONG_MAX` on the LP64 targets the source compiles for (`int64_t` max). -/
def LONG_MAX : Int := 9223372036854775807

/-- `LONG_MIN` (`int64_t` min). -/
def LONG_MIN : Int := -9223372036854775808

/-- `SafeIncrement`: saturating signed 64-bit addition; overflows resolve to
`LONG_MAX`/`LONG_MIN`. -/
def SafeIncrement (x y : Int) : Int :=
  if x > 0 ∧ y > LONG_MAX - x then LONG_MAX
  else if x < 0 ∧ y < LONG_MIN - x then LONG_MIN
  else x + y

/-- `AsDouble`: numeric payload as a double; `HARD_FAIL` on a non-numeric
argument is modelled as `none`. -/
def AsDouble (value : Value) : Option Rat :=
  if value.type = .Double then some value.double_value
  else if value.type = .Integer then some (value.integer_value : Rat)
  else none

/-- `ComputeBaseValue`, dispatched over the variants: `nullopt` for server
timestamps and array transforms; for numeric increment, the previous value
when present and numeric, the integer zero otherwise. -/
def TransformOperation.ComputeBaseValue :
    TransformOperation → Option Value → Option Value
  | .serverTimestampTransform, _ => none
  | .arrayTransform _ _, _ => none
  | .numericIncrementTransform _, previous_value =>
      match previous_value with
      | some v => if v.is_number then some v else some (.integerValue 0)
      | none => some (.integerValue 0)

/-- `NumericIncrementTransform::Rep::ApplyToLocalView`: integer + integer
uses `SafeIncrement`; otherwise both sides are promoted with `AsDouble` and
added; the `HARD_ASSERT`/`HARD_FAIL` paths (non-numeric base or operand)
are modelled as `none`. -/
def NumericIncrementTransform.ApplyToLocalView (operand : Value)
    (previous_value : Option Value) : Option Value :=
  match TransformOperation.ComputeBaseValue (.numericIncrementTransform operand)
      previous_value with
  | some base_value =>
      if base_value.type = .Integer ∧ operand.type = .Integer then
        some (.integerValue (SafeIncrement base_value.integer_value operand.integer_value))
      else
        match AsDouble base_value, AsDouble operand with
        | some x, some y => some (.doubleValue (x + y))
        | _, _ => none
  | none => none

/-- `ApplyToLocalView`, dispatched over the variants. -/
def TransformOperation.ApplyToLocalView :
    TransformOperation → Option Value → Timestamp → Option Value
  | .serverTimestampTransform, previous_value, local_write_time =>
      some (FromServerTimestamp local_write_time previous_value)
  | .arrayTransform ty elements, previous_value, _ =>
      some (ArrayTransform.Apply ty elements previous_value)
  | .numericIncrementTransform operand, previous_value, _ =>
      NumericIncrementTransform.ApplyToLocalView operand previous_value

/-- `ApplyToRemoteDocument`, dispatched over the variants: server timestamp
and numeric increment return the server's `transform_result` verbatim;
array transforms recompute exactly as the local view does. -/
def TransformOperation.ApplyToRemoteDocument :
    TransformOperation → Option Value → Value → Value
  | .serverTimestampTransform, _, transform_result => transform_result
  | .arrayTransform ty elements, previous_value, _ =>
      ArrayTransform.Apply ty elements previous_value
  | .numericIncrementTransform _, _, transform_result => transform_result

/-- `Equals`, dispatched over the variants: all server timestamp transforms
are equal; an array transform first compares the other's tag against its
own and then the element sequences; a numeric increment compares the tag
and then the operands.  The `static_cast` in the source is justified by the
preceding tag check; the unreachable mismatch arms are `false` here. -/
def TransformOperation.Equals : TransformOperation → TransformOperation → Bool
  | .serverTimestampTransform, other => other.type == TransformType.ServerTimestamp
  | .arrayTransform ty elements, other =>
      if other.type ≠ ty then false
      else
        match other with
        | .arrayTransform _ other_elements => valueListEq elements other_elements
        | _ => false
  | .numericIncrementTransform operand, other =>
      if other.type ≠ TransformType.Increment then false
      else
        match other with
        | .numericIncrementTransform other_operand => valueEq operand other_operand
        | _ => false

/-- `Hash`, dispatched over the variants: the fixed constant 37 for server
timestamps; for array transforms the sequential `size_t` mix
`31 * result + _` seeded with 37 and the tag constant (1231 for union,
1237 for removal); for numeric increment the operand's own hash. -/
def TransformOperation.Hash : TransformOperation → Nat
  | .serverTimestampTransform => 37
  | .arrayTransform ty elements =>
      elements.foldl (fun result element => (31 * result + valueHash element) % 2 ^ 64)
        ((31 * 37 + (if ty = TransformType.ArrayUnion then 1231 else 1237)) % 2 ^ 64)
  | .numericIncrementTransform operand => valueHash operand

theorem valueEq_eq_decide (a b : Value) : valueEq a b = decide (a = b) := by
  by_cases h : a = b
  · simp [h, valueEq_refl]
  · rw [decide_eq_false h]
    exact Bool.eq_false_iff.mpr (fun hc => h (valueEq_sound a b hc))

theorem valueListEq_eq_decide (xs ys : List Value) : valueListEq xs ys = decide (xs = ys) := by
  by_cases h : xs = ys
  · simp [h, valueListEq_refl]
  · rw [decide_eq_false h]
    exact Bool.eq_false_iff.mpr (fun hc => h (valueListEq_sound xs ys hc))

theorem valueEq_symm (a b : Value) : valueEq a b = valueEq b a := by
  rw [valueEq_eq_decide, valueEq_eq_decide]
  simp [eq_comm]

theorem valueListEq_symm (xs ys : List Value) : valueListEq xs ys = valueListEq ys xs := by
  rw [valueListEq_eq_decide, valueListEq_eq_decide]
  simp [eq_comm]

theorem RemoveMatches_eq_filter (e : Value) : ∀ (r : List Value),
    ArrayTransform.RemoveMatches e r = r.filter (fun x => !decide (e = x))
  | [] => rfl
  | x :: rest => by
      by_cases h : e = x
      · subst h
        simp [ArrayTransform.RemoveMatches, List.filter_cons,
          RemoveMatches_eq_filter e rest]
      · simp [ArrayTransform.RemoveMatches, h, List.filter_cons,
          RemoveMatches_eq_filter e rest]

theorem RemoveMatches_of_not_mem (e : Value) (r : List Value) (h : e ∉ r) :
    ArrayTransform.RemoveMatches e r = r := by
  rw [RemoveMatches_eq_filter, List.filter_eq_self]
  intro a ha
  simp only [Bool.not_eq_true', decide_eq_false_iff_not]
  exact fun he => h (by rw [he]; exact ha)

theorem ApplyStep_union (r : List Value) (e : Value) :
    ArrayTransform.ApplyStep .ArrayUnion r e = if e ∈ r then r else r ++ [e] := by
  simp [ArrayTransform.ApplyStep]

theorem ApplyStep_remove (r : List Value) (e : Value) :
    ArrayTransform.ApplyStep .ArrayRemove r e = ArrayTransform.RemoveMatches e r := by
  simp [ArrayTransform.ApplyStep]

theorem unionFold_grows : ∀ (elements prev : List Value), ∃ appended,
    elements.foldl (ArrayTransform.ApplyStep .ArrayUnion) prev = prev ++ appended
  | [], prev => ⟨[], by simp⟩
  | e :: es, prev => by
      obtain ⟨s, hs⟩ := unionFold_grows es (ArrayTransform.ApplyStep .ArrayUnion prev e)
      by_cases h : e ∈ prev
      · refine ⟨s, ?_⟩
        rw [List.foldl_cons, hs, ApplyStep_union, if_pos h]
      · refine ⟨[e] ++ s, ?_⟩
        rw [List.foldl_cons, hs, ApplyStep_union, if_neg h, List.append_assoc]

theorem removeFold_nil : ∀ (elements : List Value),
    elements.foldl (ArrayTransform.ApplyStep .ArrayRemove) [] = []
  | [] => rfl
  | e :: es => by
      have h : ArrayTransform.ApplyStep .ArrayRemove [] e = [] := by
        simp [ArrayTransform.ApplyStep, ArrayTransform.RemoveMatches]
      simp only [List.foldl_cons, h, removeFold_nil es]

/-- Claim C1: `ArrayRemove` processes candidates in order; each candidate
removes every position of the current result equal to it (compacting,
order of survivors preserved) before the next candidate is processed; an
absent candidate is a no-op; `ArrayRemove([a])` on `[a, b, a]` yields
`[b]`. -/
theorem arrayRemove_removes_every_occurrence (a b : Value) (hab : a ≠ b) :
    (∀ (elements : List Value) (previous_value : Option Value),
        ArrayTransform.Apply .ArrayRemove elements previous_value
          = .arrayValue (elements.foldl
              (fun result e => result.filter (fun x => !decide (e = x)))
              (ArrayTransform.CoercedValuesArray previous_value))) ∧
    (∀ (e : Value) (result : List Value), e ∉ result →
        ArrayTransform.RemoveMatches e result = result) ∧
    ArrayTransform.Apply .ArrayRemove [a] (some (.arrayValue [a, b, a]))
      = .arrayValue [b] := by
  have hfun : ArrayTransform.ApplyStep .ArrayRemove
      = fun result e => result.filter (fun x => !decide (e = x)) := by
    funext r e
    rw [ApplyStep_remove, RemoveMatches_eq_filter]
  refine ⟨?_, RemoveMatches_of_not_mem, ?_⟩
  · intro elements previous_value
    simp only [ArrayTransform.Apply, hfun]
  · simp [ArrayTransform.Apply, ArrayTransform.ApplyStep,
      ArrayTransform.CoercedValuesArray, Value.array_value, Value.type,
      ArrayTransform.RemoveMatches, hab]

/-- Claim C1 witness: the remove theorem instantiated at integers 1 and 2. -/
theorem arrayRemove_removes_every_occurrence_witness :
    ArrayTransform.Apply .ArrayRemove [.integerValue 1]
      (some (.arrayValue [.integerValue 1, .integerValue 2, .integerValue 1]))
      = .arrayValue [.integerValue 2] :=
  (arrayRemove_removes_every_occurrence (.integerValue 1) (.integerValue 2)
    (by decide)).2.2

/-- Claim C2: `ArrayUnion` processes candidates in order, appending a
candidate only if no element already in the result (including earlier
appends in the same pass) equals it; the previous array is preserved as an
unchanged initial segment (so pre-existing duplicates are untouched);
`ArrayUnion([a, a, b])` on `[a]` yields `[a, b]`. -/
theorem arrayUnion_appends_only_missing (a b : Value) (hab : a ≠ b) :
    (∀ (elements : List Value) (previous_value : Option Value),
        ArrayTransform.Apply .ArrayUnion elements previous_value
          = .arrayValue (elements.foldl
              (fun result e => if e ∈ result then result else result ++ [e])
              (ArrayTransform.CoercedValuesArray previous_value))) ∧
    (∀ (elements prev : List Value), ∃ appended,
        elements.foldl (ArrayTransform.ApplyStep .ArrayUnion) prev
          = prev ++ appended) ∧
    ArrayTransform.Apply .ArrayUnion [a, a, b] (some (.arrayValue [a]))
      = .arrayValue [a, b] := by
  have hfun : ArrayTransform.ApplyStep .ArrayUnion
      = fun result e => if e ∈ result then result else result ++ [e] := by
    funext r e
    exact ApplyStep_union r e
  refine ⟨?_, unionFold_grows, ?_⟩
  · intro elements previous_value
    simp only [ArrayTransform.Apply, hfun]
  · simp [ArrayTransform.Apply, ArrayTransform.ApplyStep,
      ArrayTransform.CoercedValuesArray, Value.array_value, Value.type,
      Ne.symm hab]

/-- Claim C2 witness: the union theorem instantiated at integers 1 and 2. -/
theorem arrayUnion_appends_only_missing_witness :
    ArrayTransform.Apply .ArrayUnion [.integerValue 1, .integerValue 1, .integerValue 2]
      (some (.arrayValue [.integerValue 1]))
      = .arrayValue [.integerValue 1, .integerValue 2] :=
  (arrayUnion_appends_only_missing (.integerValue 1) (.integerValue 2)
    (by decide)).2.2

/-- Claim C5: array-transform application starts from a copy of the
previous value's elements when it is present and an array, and from the
empty sequence otherwise (absent, null, or any non-array type); the
coercion is shared by union and removal (application depends on the
previous value only through it); `ArrayUnion([x])` on the integer `5`
yields `[x]`. -/
theorem arrayTransform_coercion (x : Value) :
    ArrayTransform.CoercedValuesArray none = [] ∧
    (∀ xs : List Value,
        ArrayTransform.CoercedValuesArray (some (.arrayValue xs)) = xs) ∧
    (∀ v : Value, v.type ≠ .Array →
        ArrayTransform.CoercedValuesArray (some v) = []) ∧
    (∀ (ty : TransformType) (elements : List Value) (p q : Option Value),
        ArrayTransform.CoercedValuesArray p = ArrayTransform.CoercedValuesArray q →
        ArrayTransform.Apply ty elements p = ArrayTransform.Apply ty elements q) ∧
    ArrayTransform.Apply .ArrayUnion [x] (some (.integerValue 5))
      = .arrayValue [x] := by
  refine ⟨rfl, ?_, ?_, ?_, ?_⟩
  · intro xs
    simp [ArrayTransform.CoercedValuesArray, Value.type, Value.array_value]
  · intro v hv
    simp [ArrayTransform.CoercedValuesArray, hv]
  · intro ty elements p q h
    simp only [ArrayTransform.Apply, h]
  · simp [ArrayTransform.Apply, ArrayTransform.ApplyStep,
      ArrayTransform.CoercedValuesArray, Value.type]

/-- Claim C5 witness: the coercion theorem instantiated at integer values. -/
theorem arrayTransform_coercion_witness :
    ArrayTransform.CoercedValuesArray (some (.integerValue 7)) = [] :=
  (arrayTransform_coercion (.integerValue 7)).2.2.1 (.integerValue 7) (by decide)

/-- Claim C7: `ApplyToRemoteDocument` on a server timestamp transform and
on a numeric increment transform returns the server's `transform_result`
verbatim, for every previous value. -/
theorem remote_application_verbatim (previous_value : Option Value)
    (transform_result operand : Value) :
    TransformOperation.ApplyToRemoteDocument .serverTimestampTransform
        previous_value transform_result = transform_result ∧
    TransformOperation.ApplyToRemoteDocument (.numericIncrementTransform operand)
        previous_value transform_result = transform_result :=
  ⟨rfl, rfl⟩

/-- Claim C8: for every array transform, local and remote application
compute the same value; the local write timestamp and the server transform
result are both ignored. -/
theorem arrayTransform_local_matches_remote (ty : TransformType)
    (h : IsArrayTransform ty = true) (elements : List Value)
    (previous_value : Option Value) (local_write_time : Timestamp)
    (transform_result : Value) :
    TransformOperation.ApplyToLocalView (.arrayTransform ty elements)
        previous_value local_write_time
      = some (TransformOperation.ApplyToRemoteDocument (.arrayTransform ty elements)
          previous_value transform_result) :=
  rfl

/-- Claim C8 witness: local/remote agreement at a concrete instance. -/
theorem arrayTransform_local_matches_remote_witness :
    TransformOperation.ApplyToLocalView
        (.arrayTransform .ArrayUnion [.integerValue 1]) none ⟨0, 0⟩
      = some (TransformOperation.ApplyToRemoteDocument
          (.arrayTransform .ArrayUnion [.integerValue 1]) none .nullValue) :=
  arrayTransform_local_matches_remote .ArrayUnion (by decide) [.integerValue 1]
    none ⟨0, 0⟩ .nullValue

/-- Claim C10: an array transform always returns a value of array type,
identically through the local and the remote path; in particular applying
`ArrayRemove` with any candidates to the integer `5` yields the empty
array. -/
theorem arrayTransform_returns_array (ty : TransformType)
    (h : IsArrayTransform ty = true) :
    (∀ (elements : List Value) (previous_value : Option Value)
        (local_write_time : Timestamp) (transform_result : Value),
        ∃ xs : List Value,
          TransformOperation.ApplyToLocalView (.arrayTransform ty elements)
              previous_value local_write_time = some (.arrayValue xs) ∧
          TransformOperation.ApplyToRemoteDocument (.arrayTransform ty elements)
              previous_value transform_result = .arrayValue xs ∧
          (Value.arrayValue xs).type = .Array) ∧
    (∀ elements : List Value,
        ArrayTransform.Apply .ArrayRemove elements (some (.integerValue 5))
          = .arrayValue []) := by
  constructor
  · intro elements previous_value local_write_time transform_result
    exact ⟨elements.foldl (ArrayTransform.ApplyStep ty)
      (ArrayTransform.CoercedValuesArray previous_value), rfl, rfl, rfl⟩
  · intro elements
    have hc : ArrayTransform.CoercedValuesArray (some (.integerValue 5)) = [] := by
      simp [ArrayTransform.CoercedValuesArray, Value.type]
    simp only [ArrayTransform.Apply, hc, removeFold_nil]

/-- Claim C10 witness: the array-type invariant at a concrete instance. -/
theorem arrayTransform_returns_array_witness :
    ArrayTransform.Apply .ArrayRemove [.integerValue 1] (some (.integerValue 5))
      = .arrayValue [] :=
  (arrayTransform_returns_array .ArrayRemove (by decide)).2 [.integerValue 1]

/-- Claim C4: `ComputeBaseValue` is `none` for server timestamp and array
transforms under any input; for numeric increment it is the previous value
when present and numeric, the integer zero otherwise — always a concrete
numeric value. -/
theorem computeBaseValue_by_variant (ty : TransformType) (elements : List Value)
    (operand : Value) (previous_value : Option Value) :
    TransformOperation.ComputeBaseValue .serverTimestampTransform previous_value = none ∧
    TransformOperation.ComputeBaseValue (.arrayTransform ty elements) previous_value = none ∧
    (∀ p : Value, previous_value = some p → p.is_number = true →
        TransformOperation.ComputeBaseValue (.numericIncrementTransform operand)
          previous_value = some p) ∧
    ((∀ p : Value, previous_value = some p → p.is_number = false) →
        TransformOperation.ComputeBaseValue (.numericIncrementTransform operand)
          previous_value = some (.integerValue 0)) ∧
    (∃ v : Value,
        TransformOperation.ComputeBaseValue (.numericIncrementTransform operand)
          previous_value = some v ∧ v.is_number = true) := by
  refine ⟨rfl, rfl, ?_, ?_, ?_⟩
  · rintro p rfl hp
    simp [TransformOperation.ComputeBaseValue, hp]
  · intro hall
    cases previous_value with
    | none => rfl
    | some p => simp [TransformOperation.ComputeBaseValue, hall p rfl]
  · cases previous_value with
    | none => exact ⟨.integerValue 0, rfl, rfl⟩
    | some p =>
        by_cases hp : p.is_number = true
        · exact ⟨p, by simp [TransformOperation.ComputeBaseValue, hp], hp⟩
        · refine ⟨.integerValue 0, ?_, rfl⟩
          simp only [Bool.not_eq_true] at hp
          simp [TransformOperation.ComputeBaseValue, hp]

/-- Claim C4 witness: the base-value theorem at a numeric previous value. -/
theorem computeBaseValue_by_variant_witness :
    TransformOperation.ComputeBaseValue (.numericIncrementTransform (.integerValue 1))
      (some (.integerValue 5)) = some (.integerValue 5) :=
  (computeBaseValue_by_variant .ArrayUnion [] (.integerValue 1)
    (some (.integerValue 5))).2.2.1 (.integerValue 5) rfl rfl

theorem SafeIncrement_eq_clamp (x y : Int)
    (hx1 : LONG_MIN ≤ x) (hx2 : x ≤ LONG_MAX)
    (hy1 : LONG_MIN ≤ y) (hy2 : y ≤ LONG_MAX) :
    SafeIncrement x y = max LONG_MIN (min LONG_MAX (x + y)) := by
  simp only [SafeIncrement, LONG_MAX, LONG_MIN] at *
  split_ifs with h1 h2 <;> omega

/-- Claim C3: when the resolved base and the operand are both integers,
local application of a numeric increment is their saturating signed 64-bit
sum (clamped to `LONG_MAX` on positive and `LONG_MIN` on negative
overflow); `LONG_MAX + 1` stays `LONG_MAX`, with no wraparound. -/
theorem numericIncrement_integer_saturates (base_int operand_int : Int)
    (previous_value : Option Value) (local_write_time : Timestamp)
    (hbase : TransformOperation.ComputeBaseValue
        (.numericIncrementTransform (.integerValue operand_int)) previous_value
        = some (.integerValue base_int))
    (hb1 : LONG_MIN ≤ base_int) (hb2 : base_int ≤ LONG_MAX)
    (ho1 : LONG_MIN ≤ operand_int) (ho2 : operand_int ≤ LONG_MAX) :
    TransformOperation.ApplyToLocalView
        (.numericIncrementTransform (.integerValue operand_int)) previous_value
        local_write_time
      = some (.integerValue (max LONG_MIN (min LONG_MAX (base_int + operand_int)))) ∧
    TransformOperation.ApplyToLocalView
        (.numericIncrementTransform (.integerValue 1))
        (some (.integerValue LONG_MAX)) local_write_time
      = some (.integerValue LONG_MAX) := by
  constructor
  · simp only [TransformOperation.ApplyToLocalView,
      NumericIncrementTransform.ApplyToLocalView, hbase]
    simp [Value.type, Value.integer_value,
      SafeIncrement_eq_clamp base_int operand_int hb1 hb2 ho1 ho2]
  · rfl

/-- Claim C3 witness: increment of base 5 by operand 1 through the
saturation theorem. -/
theorem numericIncrement_integer_saturates_witness :
    TransformOperation.ApplyToLocalView
        (.numericIncrementTransform (.integerValue 1)) (some (.integerValue 5)) ⟨0, 0⟩
      = some (.integerValue (max LONG_MIN (min LONG_MAX (5 + 1)))) :=
  (numericIncrement_integer_saturates 5 1 (some (.integerValue 5)) ⟨0, 0⟩ rfl
    (by decide) (by decide) (by decide) (by decide)).1

theorem equals_refl_aux : ∀ a : TransformOperation,
    TransformOperation.Equals a a = true
  | .serverTimestampTransform => rfl
  | .arrayTransform ty es => by
      simp [TransformOperation.Equals, TransformOperation.type, valueListEq_refl]
  | .numericIncrementTransform v => by
      simp [TransformOperation.Equals, TransformOperation.type, valueEq_refl]

theorem equals_symm_aux : ∀ (a b : TransformOperation),
    Constructible a = true → Constructible b = true →
    TransformOperation.Equals a b = TransformOperation.Equals b a
  | .serverTimestampTransform, .serverTimestampTransform, _, _ => rfl
  | .serverTimestampTransform, .arrayTransform ty es, _, hb => by
      cases ty <;> simp_all [TransformOperation.Equals, TransformOperation.type,
        Constructible, IsArrayTransform]
  | .serverTimestampTransform, .numericIncrementTransform v, _, _ => by
      simp [TransformOperation.Equals, TransformOperation.type]
  | .arrayTransform ty es, .serverTimestampTransform, ha, _ => by
      cases ty <;> simp_all [TransformOperation.Equals, TransformOperation.type,
        Constructible, IsArrayTransform]
  | .arrayTransform ty es, .arrayTransform ty' es', _, _ => by
      by_cases h : ty = ty'
      · subst h
        simp [TransformOperation.Equals, TransformOperation.type, valueListEq_symm]
      · simp [TransformOperation.Equals, TransformOperation.type, h, Ne.symm h]
  | .arrayTransform ty es, .numericIncrementTransform v, _, _ => by
      by_cases h : ty = .Increment
      · subst h
        simp [TransformOperation.Equals, TransformOperation.type]
      · simp [TransformOperation.Equals, TransformOperation.type, h, Ne.symm h]
  | .numericIncrementTransform v, .serverTimestampTransform, _, _ => by
      simp [TransformOperation.Equals, TransformOperation.type]
  | .numericIncrementTransform v, .arrayTransform ty es, _, _ => by
      by_cases h : ty = .Increment
      · subst h
        simp [TransformOperation.Equals, TransformOperation.type]
      · simp [TransformOperation.Equals, TransformOperation.type, h, Ne.symm h]
  | .numericIncrementTransform v, .numericIncrementTransform w, _, _ => by
      simp [TransformOperation.Equals, TransformOperation.type, valueEq_symm]

theorem equals_of_type_ne : ∀ (a b : TransformOperation),
    TransformOperation.type a ≠ TransformOperation.type b →
    TransformOperation.Equals a b = false
  | .serverTimestampTransform, b, h =>
      beq_eq_false_iff_ne.mpr (Ne.symm h)
  | .arrayTransform ty es, b, h => by
      have h' : b.type ≠ ty := Ne.symm h
      simp only [TransformOperation.Equals]
      rw [if_pos h']
  | .numericIncrementTransform v, b, h => by
      have h' : b.type ≠ TransformType.Increment := Ne.symm h
      simp only [TransformOperation.Equals]
      rw [if_pos h']

theorem equals_hash_aux : ∀ (a b : TransformOperation),
    Constructible a = true → Constructible b = true →
    TransformOperation.Equals a b = true →
    TransformOperation.Hash a = TransformOperation.Hash b
  | .serverTimestampTransform, .serverTimestampTransform, _, _, _ => rfl
  | .serverTimestampTransform, .arrayTransform ty es, _, hb, h => by
      exfalso
      cases ty <;> simp_all [TransformOperation.Equals, TransformOperation.type,
        Constructible, IsArrayTransform]
  | .serverTimestampTransform, .numericIncrementTransform v, _, _, h => by
      exfalso
      simp [TransformOperation.Equals, TransformOperation.type] at h
  | .arrayTransform ty es, .serverTimestampTransform, _, _, h => by
      exfalso
      revert h
      cases ty <;> simp [TransformOperation.Equals, TransformOperation.type]
  | .arrayTransform ty es, .arrayTransform ty' es', _, _, h => by
      by_cases hty : ty' = ty
      · subst hty
        have h2 : valueListEq es es' = true := by
          simpa [TransformOperation.Equals, TransformOperation.type] using h
        obtain rfl := valueListEq_sound es es' h2
        rfl
      · exfalso
        simp [TransformOperation.Equals, TransformOperation.type, hty] at h
  | .arrayTransform ty es, .numericIncrementTransform v, _, _, h => by
      exfalso
      revert h
      by_cases hty : ty = .Increment
      · subst hty
        simp [TransformOperation.Equals, TransformOperation.type]
      · simp [TransformOperation.Equals, TransformOperation.type, Ne.symm hty]
  | .numericIncrementTransform v, .serverTimestampTransform, _, _, h => by
      exfalso
      simp [TransformOperation.Equals, TransformOperation.type] at h
  | .numericIncrementTransform v, .arrayTransform ty es, _, _, h => by
      exfalso
      revert h
      by_cases hty : ty = .Increment
      · subst hty
        simp [TransformOperation.Equals, TransformOperation.type]
      · simp [TransformOperation.Equals, TransformOperation.type, hty]
  | .numericIncrementTransform v, .numericIncrementTransform w, _, _, h => by
      have h2 : valueEq v w = true := by
        simpa [TransformOperation.Equals, TransformOperation.type] using h
      obtain rfl := valueEq_sound v w h2
      rfl

theorem equals_array_iff (ty ty' : TransformType) (es es' : List Value) :
    TransformOperation.Equals (.arrayTransform ty es) (.arrayTransform ty' es') = true
      ↔ ty = ty' ∧ es = es' := by
  by_cases h : ty' = ty
  · subst h
    simp [TransformOperation.Equals, TransformOperation.type, valueListEq_iff]
  · simp [TransformOperation.Equals, TransformOperation.type, h, Ne.symm h]

/-- Claim C9: over constructed transforms, `Equals` is reflexive and
symmetric, operations of different variant tags are never equal, and equal
operations have equal hashes; all server timestamp transforms are equal
with the fixed hash 37, and array-transform equality holds exactly for the
same tag and the same candidate sequence in the same order. -/
theorem transform_equals_hash_laws (a b : TransformOperation)
    (ha : Constructible a = true) (hb : Constructible b = true) :
    TransformOperation.Equals a a = true ∧
    TransformOperation.Equals a b = TransformOperation.Equals b a ∧
    (TransformOperation.type a ≠ TransformOperation.type b →
        TransformOperation.Equals a b = false) ∧
    (TransformOperation.Equals a b = true →
        TransformOperation.Hash a = TransformOperation.Hash b) ∧
    TransformOperation.Hash .serverTimestampTransform = 37 ∧
    TransformOperation.Equals .serverTimestampTransform .serverTimestampTransform = true ∧
    (∀ (ty ty' : TransformType) (elements other_elements : List Value),
        TransformOperation.Equals (.arrayTransform ty elements)
            (.arrayTransform ty' other_elements) = true
          ↔ ty = ty' ∧ elements = other_elements) :=
  ⟨equals_refl_aux a, equals_symm_aux a b ha hb, equals_of_type_ne a b,
    equals_hash_aux a b ha hb, rfl, rfl,
    fun ty ty' elements other_elements => equals_array_iff ty ty' elements other_elements⟩

/-- Claim C9 witness: the equality laws at two concrete constructed
transforms. -/
theorem transform_equals_hash_laws_witness :
    TransformOperation.Equals (.arrayTransform .ArrayUnion [.integerValue 1])
      (.arrayTransform .ArrayUnion [.integerValue 1]) = true :=
  (transform_equals_hash_laws (.arrayTransform .ArrayUnion [.integerValue 1])
    .serverTimestampTransform (by decide) rfl).1
